import Mathlib

/-!
Verification of the ChiptunePractice synthesis/effects core.

The C++ sources are shallowly embedded: every audio value, parameter and
internal float field is modelled as an exact rational (`ℚ`), C++ `int`
fields as `ℤ`, and each mutating method becomes a pure function from the
object state (a structure) to the result together with the updated state.
`std::round` (round half away from zero) and `static_cast<int>`
(truncation toward zero) are modelled explicitly below.
-/

/-- Model of C++ std::round on rationals: round half away from zero. -/
def roundAway (q : ℚ) : ℤ :=
  if 0 ≤ q then ⌊q + 1 / 2⌋ else ⌈q - 1 / 2⌉

/-- Model of C++ static_cast from a floating value to int: truncation toward zero. -/
def cppIntCast (q : ℚ) : ℤ :=
  if 0 ≤ q then ⌊q⌋ else ⌈q⌉

/-- Model of std::clamp on ints (the bounds used in this repo satisfy lo ≤ hi). -/
def clampInt (lo hi x : ℤ) : ℤ := max lo (min x hi)

/-- Model of juce jlimit on rationals (clamp to [lo, hi]). -/
def clampQ (lo hi x : ℚ) : ℚ := max lo (min x hi)

theorem roundAway_sub_abs_le (q : ℚ) : |(roundAway q : ℚ) - q| ≤ 1 / 2 := by
  unfold roundAway
  rcases le_or_lt 0 q with h | h
  · rw [if_pos h]
    have h1 : (⌊q + 1 / 2⌋ : ℚ) ≤ q + 1 / 2 := Int.floor_le _
    have h2 : q + 1 / 2 - 1 < (⌊q + 1 / 2⌋ : ℚ) := Int.sub_one_lt_floor _
    rw [abs_le]
    constructor <;> linarith
  · rw [if_neg (not_le.mpr h)]
    have h1 : (q - 1 / 2 : ℚ) ≤ (⌈q - 1 / 2⌉ : ℚ) := Int.le_ceil _
    have h2 : (⌈q - 1 / 2⌉ : ℚ) < q - 1 / 2 + 1 := Int.ceil_lt_add_one _
    rw [abs_le]
    constructor <;> linarith

theorem roundAway_intCast (k : ℤ) : roundAway (k : ℚ) = k := by
  unfold roundAway
  rcases le_or_lt 0 (k : ℚ) with h | h
  · rw [if_pos h, Int.floor_int_add]
    norm_num
  · rw [if_neg (not_le.mpr h),
      show ((k : ℚ) - 1 / 2) = (-(1 / 2) : ℚ) + (k : ℚ) by ring,
      Int.ceil_add_int]
    norm_num

/-! ## Bitcrusher (Bitcrusher.h)

State fields mirror the private members of class Bitcrusher; the float
member bitDepthScale is an exact rational here. -/

structure Bitcrusher where
  sampleRateReduction : ℤ
  bitDepth : ℤ
  bitDepthScale : ℚ
  lastProcessedSample : ℚ
  currentSampleCount : ℤ

/-- Default member initializers of class Bitcrusher. -/
def bitcrusherInit : Bitcrusher :=
  { sampleRateReduction := 1
    bitDepth := 24
    bitDepthScale := 2 ^ 24 - 1
    lastProcessedSample := 0
    currentSampleCount := 0 }

/-- Bitcrusher::setSampleRateReduction. -/
def Bitcrusher.setSampleRateReduction (st : Bitcrusher) (reductionFactor : ℤ) : Bitcrusher :=
  { st with sampleRateReduction := max 1 reductionFactor }

/-- Bitcrusher::setBitDepth: clamp depth to [1, 24] and recompute
bitDepthScale = 2 ^ bitDepth - 1. -/
def Bitcrusher.setBitDepth (st : Bitcrusher) (depth : ℤ) : Bitcrusher :=
  let d := clampInt 1 24 depth
  { st with bitDepth := d, bitDepthScale := 2 ^ d.toNat - 1 }

/-- Bitcrusher::process: doubles the input (range [-0.5, 0.5] to [-1, 1]),
then every sampleRateReduction-th call quantizes to the nearest multiple of
1 / bitDepthScale and rescales, holding the previous output in between. -/
def Bitcrusher.process (st : Bitcrusher) (inVal0 : ℚ) : ℚ × Bitcrusher :=
  let inVal := 2 * inVal0
  let count := st.currentSampleCount + 1
  if count ≥ st.sampleRateReduction then
    let scaled := inVal * st.bitDepthScale
    let quantized : ℤ := roundAway scaled
    let lastProcessedSample := (quantized : ℚ) / st.bitDepthScale / 2
    (lastProcessedSample,
      { st with currentSampleCount := 0, lastProcessedSample := lastProcessedSample })
  else
    (st.lastProcessedSample, { st with currentSampleCount := count })

/-! ## Delay (Delay.h)

readPos and writePos are float members in the C++ class, hence rationals
here; buffer indexing converts them through floor/truncation exactly as the
implicit float-to-size_t conversions do on the nonnegative values that occur. -/

structure Delay where
  buffer : List ℚ
  readPos : ℚ
  writePos : ℚ
  feedback : ℚ
  delayTime : ℚ
  size : ℤ
  dryWetMix : ℚ

/-- Delay::setSize: resize the buffer to the new size, zero-filled. -/
def Delay.setSize (st : Delay) (newSize : ℤ) : Delay :=
  { st with size := newSize, buffer := List.replicate newSize.toNat 0 }

/-- Delay::setFeedback (jlimit to [0, 0.99]). -/
def Delay.setFeedback (st : Delay) (f : ℚ) : Delay :=
  { st with feedback := clampQ 0 (99 / 100) f }

/-- Delay::setDelayTime: store the time and re-derive readPos = writePos -
delayTime, wrapped up by size if negative. -/
def Delay.setDelayTime (st : Delay) (delayTimeInSamples : ℚ) : Delay :=
  let readPos0 := st.writePos - delayTimeInSamples
  { st with delayTime := delayTimeInSamples
            readPos := if readPos0 < 0 then readPos0 + st.size else readPos0 }

/-- Delay::setDryWetMix (jlimit to [0, 1]). -/
def Delay.setDryWetMix (st : Delay) (mix : ℚ) : Delay :=
  { st with dryWetMix := clampQ 0 1 mix }

/-- Delay::linearInterpolation: read the two buffer entries bracketing the
fractional readPos and interpolate. -/
def Delay.linearInterpolation (st : Delay) : ℚ :=
  let indexA : ℤ := ⌊st.readPos⌋
  let indexB : ℤ := (indexA + 1) % st.size
  let ValA := st.buffer.getD indexA.toNat 0
  let ValB := st.buffer.getD indexB.toNat 0
  let frac := st.readPos - (indexA : ℚ)
  (1 - frac) * ValA + frac * ValB

/-- Delay::process: when delayTime > 0, write input plus feedback, advance
and wrap both positions, and return the dry/wet blend; otherwise pass the
input through, touching nothing. -/
def Delay.process (st : Delay) (inVal : ℚ) : ℚ × Delay :=
  if st.delayTime > 0 then
    let outVal := st.linearInterpolation
    let buffer1 := st.buffer.set ⌊st.writePos⌋.toNat (inVal + outVal * st.feedback)
    let w1 := st.writePos + 1
    let w2 := if w1 ≥ (st.size : ℚ) then w1 - st.size else w1
    let r1 := st.readPos + 1
    let r2 := if r1 ≥ (st.size : ℚ) then r1 - st.size else r1
    (inVal * (1 - st.dryWetMix) + outVal * st.dryWetMix,
      { st with buffer := buffer1, writePos := w2, readPos := r2 })
  else
    (inVal, st)

/-- C2: Delay::process with delayTime ≤ 0 returns exactly the input and
leaves the whole delay state (buffer, readPos, writePos, all fields)
unchanged. -/
theorem delay_passthrough_zero_time (st : Delay) (x : ℚ) (h : st.delayTime ≤ 0) :
    st.process x = (x, st) := by
  unfold Delay.process
  rw [if_neg (not_lt.mpr h)]

/-- C1: with rateReduction = 1 and bitDepth = 24 (so bitDepthScale =
2^24 - 1, its default), Bitcrusher::process returns its input to within
1 / (4 * (2^24 - 1)) for inputs in [-1/2, 1/2]; and with delayTime = 0 the
per-channel master chain delay.process(bitcrusher.process(x)) equals the
bitcrusher output exactly, hence is also within the same epsilon of x. -/
theorem bitcrusher_chain_identity_24bit (bc : Bitcrusher) (d : Delay) (x : ℚ)
    (hred : bc.sampleRateReduction = 1) (hscale : bc.bitDepthScale = 2 ^ 24 - 1)
    (hcnt : 0 ≤ bc.currentSampleCount) (hdt : d.delayTime = 0)
    (hx1 : -(1 / 2) ≤ x) (hx2 : x ≤ 1 / 2) :
    |(bc.process x).1 - x| ≤ 1 / (4 * (2 ^ 24 - 1)) ∧
      (d.process (bc.process x).1).1 = (bc.process x).1 ∧
      |(d.process (bc.process x).1).1 - x| ≤ 1 / (4 * (2 ^ 24 - 1)) := by
  have hout : (bc.process x).1 = (roundAway (2 * x * bc.bitDepthScale) : ℚ) / bc.bitDepthScale / 2 := by
    unfold Bitcrusher.process
    rw [if_pos (by rw [hred]; omega)]
  have hS : bc.bitDepthScale = (16777215 : ℚ) := by rw [hscale]; norm_num
  have hr := roundAway_sub_abs_le (2 * x * bc.bitDepthScale)
  set q : ℤ := roundAway (2 * x * bc.bitDepthScale) with hq
  have hbound : |(bc.process x).1 - x| ≤ 1 / (4 * (2 ^ 24 - 1)) := by
    rw [hout, hS]
    rw [hS] at hr
    have heq : (q : ℚ) / 16777215 / 2 - x = ((q : ℚ) - 2 * x * 16777215) / 33554430 := by
      ring
    rw [heq, abs_div, abs_of_pos (by norm_num : (0 : ℚ) < 33554430)]
    rw [div_le_iff₀ (by norm_num : (0 : ℚ) < 33554430)]
    calc |(q : ℚ) - 2 * x * 16777215| ≤ 1 / 2 := hr
      _ = 1 / (4 * (2 ^ 24 - 1)) * 33554430 := by norm_num
  have hpass : (d.process (bc.process x).1).1 = (bc.process x).1 := by
    rw [delay_passthrough_zero_time d _ (le_of_eq hdt)]
  exact ⟨hbound, hpass, by rw [hpass]; exact hbound⟩

/-- Witness for C1: the default-constructed Bitcrusher (reduction 1, depth
24) and a Delay with delayTime 0, on input x = 1/4. -/
theorem bitcrusher_chain_identity_24bit_witness :
    |(bitcrusherInit.process (1 / 4)).1 - 1 / 4| ≤ 1 / (4 * (2 ^ 24 - 1)) ∧
      (Delay.process
          { buffer := [0, 0, 0, 0], readPos := 1, writePos := 0,
            feedback := 1 / 2, delayTime := 0, size := 4, dryWetMix := 1 / 5 }
          (bitcrusherInit.process (1 / 4)).1).1 = (bitcrusherInit.process (1 / 4)).1 ∧
      |(Delay.process
          { buffer := [0, 0, 0, 0], readPos := 1, writePos := 0,
            feedback := 1 / 2, delayTime := 0, size := 4, dryWetMix := 1 / 5 }
          (bitcrusherInit.process (1 / 4)).1).1 - 1 / 4| ≤ 1 / (4 * (2 ^ 24 - 1)) :=
  bitcrusher_chain_identity_24bit bitcrusherInit _ (1 / 4)
    rfl (by norm_num [bitcrusherInit]) (by decide) rfl (by norm_num) (by norm_num)

/-- Witness for C2 at a concrete state with delayTime = 0 (set through
Delay::setDelayTime) and input 7/3. -/
theorem delay_passthrough_zero_time_witness :
    (Delay.setDelayTime
        { buffer := [0, 0, 0, 0], readPos := 1, writePos := 0,
          feedback := 1 / 2, delayTime := 5, size := 4, dryWetMix := 1 / 5 } 0).delayTime ≤ 0 ∧
      (Delay.setDelayTime
        { buffer := [0, 0, 0, 0], readPos := 1, writePos := 0,
          feedback := 1 / 2, delayTime := 5, size := 4, dryWetMix := 1 / 5 } 0).process (7 / 3) =
        (7 / 3,
          Delay.setDelayTime
            { buffer := [0, 0, 0, 0], readPos := 1, writePos := 0,
              feedback := 1 / 2, delayTime := 5, size := 4, dryWetMix := 1 / 5 } 0) :=
  ⟨by decide, delay_passthrough_zero_time _ (7 / 3) (by decide)⟩

/-! ## Claim C3: quantization level count -/

/-- Output of Bitcrusher::process on a freshly constructed instance after
setBitDepth(d): the quantized value used for both C3 statements. -/
def bitcrusherQuantAt (d : ℤ) (x : ℚ) : ℚ :=
  ((bitcrusherInit.setBitDepth d).process x).1

/-- The evenly spaced output levels k / (2 * (2^d - 1)) for k in
[-(2^d - 1), 2^d - 1] that the bitcrushed output is snapped to. -/
def quantLevels (d : ℕ) : Finset ℚ :=
  (Finset.Icc (-(2 ^ d - 1) : ℤ) (2 ^ d - 1)).image fun k : ℤ => (k : ℚ) / (2 * ((2 : ℚ) ^ d - 1))

/-- State of the bitcrusher right after construction and setBitDepth(1). -/
theorem setBitDepth_one_state : bitcrusherInit.setBitDepth 1 =
    { sampleRateReduction := 1, bitDepth := 1, bitDepthScale := 1,
      lastProcessedSample := 0, currentSampleCount := 0 } := by
  norm_num [Bitcrusher.setBitDepth, bitcrusherInit, clampInt]

/-- C3 counterexample: at bitDepth 1 the claim predicts exactly 2^1 = 2
distinct output values, but the three inputs -1/2, 0, 1/2 already produce
3 distinct outputs (-1/2, 0, 1/2). -/
theorem bitcrusher_levels_counterexample :
    ({bitcrusherQuantAt 1 (-(1 / 2)), bitcrusherQuantAt 1 0, bitcrusherQuantAt 1 (1 / 2)} :
        Finset ℚ).card = 3 ∧ (3 : ℕ) ≠ 2 ^ 1 := by
  have hc : (⌈(-(3 / 2) : ℚ)⌉ : ℤ) = -1 := by rw [Int.ceil_eq_iff]; norm_num
  have h1 : bitcrusherQuantAt 1 (-(1 / 2)) = -(1 / 2) := by
    rw [bitcrusherQuantAt, setBitDepth_one_state]
    norm_num [Bitcrusher.process, roundAway]
    rw [hc]; norm_num
  have h2 : bitcrusherQuantAt 1 0 = 0 := by
    rw [bitcrusherQuantAt, setBitDepth_one_state]
    norm_num [Bitcrusher.process, roundAway]
  have h3 : bitcrusherQuantAt 1 (1 / 2) = 1 / 2 := by
    rw [bitcrusherQuantAt, setBitDepth_one_state]
    norm_num [Bitcrusher.process, roundAway]
  rw [h1, h2, h3]
  norm_num

/-- C3 amended: for bitDepth d in [1,24] set via setBitDepth(d), every
output of Bitcrusher::process on inputs in [-1/2, 1/2] lies in the set of
2^(d+1) - 1 (not 2^d) evenly spaced levels k / (2 * (2^d - 1)), every such
level is attained by some input in range, and the level set has exactly
2^(d+1) - 1 elements. -/
theorem bitcrusher_quant_levels (d : ℕ) (hd1 : 1 ≤ d) (hd2 : d ≤ 24) :
    (∀ x : ℚ, -(1 / 2) ≤ x → x ≤ 1 / 2 → bitcrusherQuantAt d x ∈ quantLevels d) ∧
      (∀ v ∈ quantLevels d, ∃ x : ℚ, -(1 / 2) ≤ x ∧ x ≤ 1 / 2 ∧ bitcrusherQuantAt d x = v) ∧
      (quantLevels d).card = 2 ^ (d + 1) - 1 := by
  have hclamp : clampInt 1 24 (d : ℤ) = (d : ℤ) := by
    unfold clampInt; omega
  have hS2 : (1 : ℚ) ≤ (2 : ℚ) ^ d - 1 := by
    have : (2 : ℚ) ^ 1 ≤ (2 : ℚ) ^ d := pow_le_pow_right₀ (by norm_num) hd1
    simpa using by linarith
  have hSpos : (0 : ℚ) < (2 : ℚ) ^ d - 1 := by linarith
  have hSne : ((2 : ℚ) ^ d - 1) ≠ 0 := ne_of_gt hSpos
  have hout : ∀ x : ℚ,
      bitcrusherQuantAt d x =
        (roundAway (2 * x * ((2 : ℚ) ^ d - 1)) : ℚ) / ((2 : ℚ) ^ d - 1) / 2 := by
    intro x
    unfold bitcrusherQuantAt Bitcrusher.setBitDepth Bitcrusher.process
    simp only [hclamp, bitcrusherInit, Int.toNat_natCast]
    norm_num
  refine ⟨?_, ?_, ?_⟩
  · intro x hx1 hx2
    have habs := roundAway_sub_abs_le (2 * x * ((2 : ℚ) ^ d - 1))
    have hin : |2 * x * ((2 : ℚ) ^ d - 1)| ≤ (2 : ℚ) ^ d - 1 := by
      rw [abs_mul, abs_of_pos hSpos]
      have h2x : |2 * x| ≤ 1 := by rw [abs_le]; constructor <;> linarith
      have hmul := mul_le_mul_of_nonneg_right h2x (le_of_lt hSpos)
      rw [one_mul] at hmul
      exact hmul
    have hqabs : |(roundAway (2 * x * ((2 : ℚ) ^ d - 1)) : ℚ)| ≤ ((2 : ℚ) ^ d - 1) + 1 / 2 := by
      calc |(roundAway (2 * x * ((2 : ℚ) ^ d - 1)) : ℚ)|
          = |((roundAway (2 * x * ((2 : ℚ) ^ d - 1)) : ℚ) - 2 * x * ((2 : ℚ) ^ d - 1)) +
              2 * x * ((2 : ℚ) ^ d - 1)| := by ring_nf
        _ ≤ |(roundAway (2 * x * ((2 : ℚ) ^ d - 1)) : ℚ) - 2 * x * ((2 : ℚ) ^ d - 1)| +
              |2 * x * ((2 : ℚ) ^ d - 1)| := abs_add _ _
        _ ≤ ((2 : ℚ) ^ d - 1) + 1 / 2 := by linarith
    have hcast : (((2 : ℤ) ^ d : ℤ) : ℚ) = (2 : ℚ) ^ d := by push_cast; ring
    have hq_le : roundAway (2 * x * ((2 : ℚ) ^ d - 1)) ≤ 2 ^ d - 1 := by
      by_contra hcon
      push_neg at hcon
      have hle : (2 : ℤ) ^ d ≤ roundAway (2 * x * ((2 : ℚ) ^ d - 1)) := by omega
      have hleQ : (((2 : ℤ) ^ d : ℤ) : ℚ) ≤ (roundAway (2 * x * ((2 : ℚ) ^ d - 1)) : ℚ) :=
        Int.cast_le.mpr hle
      rw [hcast] at hleQ
      have := (abs_le.mp hqabs).2
      linarith
    have hq_ge : -(2 ^ d - 1) ≤ roundAway (2 * x * ((2 : ℚ) ^ d - 1)) := by
      by_contra hcon
      push_neg at hcon
      have hle : roundAway (2 * x * ((2 : ℚ) ^ d - 1)) ≤ -(2 : ℤ) ^ d := by omega
      have hleQ : (roundAway (2 * x * ((2 : ℚ) ^ d - 1)) : ℚ) ≤ ((-(2 : ℤ) ^ d : ℤ) : ℚ) :=
        Int.cast_le.mpr hle
      have : ((-(2 : ℤ) ^ d : ℤ) : ℚ) = -(2 : ℚ) ^ d := by push_cast; ring
      rw [this] at hleQ
      have := (abs_le.mp hqabs).1
      linarith
    rw [hout x, quantLevels]
    refine Finset.mem_image.mpr ⟨roundAway (2 * x * ((2 : ℚ) ^ d - 1)),
      Finset.mem_Icc.mpr ⟨hq_ge, hq_le⟩, ?_⟩
    rw [div_div, mul_comm ((2 : ℚ) ^ d - 1) 2]
  · intro v hv
    rw [quantLevels] at hv
    obtain ⟨k, hkmem, rfl⟩ := Finset.mem_image.mp hv
    have hk := Finset.mem_Icc.mp hkmem
    have hk1 : ((-(2 ^ d - 1) : ℤ) : ℚ) ≤ (k : ℚ) := Int.cast_le.mpr hk.1
    have hk2 : ((k : ℚ)) ≤ (((2 : ℤ) ^ d - 1 : ℤ) : ℚ) := Int.cast_le.mpr hk.2
    push_cast at hk1 hk2
    have h2Spos : (0 : ℚ) < 2 * ((2 : ℚ) ^ d - 1) := by linarith
    refine ⟨(k : ℚ) / (2 * ((2 : ℚ) ^ d - 1)), ?_, ?_, ?_⟩
    · rw [le_div_iff₀ h2Spos]
      nlinarith
    · rw [div_le_iff₀ h2Spos]
      nlinarith
    · rw [hout]
      have harg : 2 * ((k : ℚ) / (2 * ((2 : ℚ) ^ d - 1))) * ((2 : ℚ) ^ d - 1) = (k : ℚ) := by
        field_simp
        ring
      rw [harg, roundAway_intCast, div_div, mul_comm ((2 : ℚ) ^ d - 1) 2]
  · rw [quantLevels]
    have hinj : Function.Injective fun k : ℤ => (k : ℚ) / (2 * ((2 : ℚ) ^ d - 1)) := by
      intro a b hab
      have h2Spos : (0 : ℚ) < 2 * ((2 : ℚ) ^ d - 1) := by linarith
      have hne : (2 * ((2 : ℚ) ^ d - 1)) ≠ 0 := ne_of_gt h2Spos
      simp only at hab
      rw [div_eq_div_iff hne hne] at hab
      have hab2 : (a : ℚ) = b := mul_right_cancel₀ hne hab
      exact_mod_cast hab2
    rw [Finset.card_image_of_injective _ hinj, Int.card_Icc]
    have h1 : ((2 : ℤ) ^ d) = ((2 ^ d : ℕ) : ℤ) := by push_cast; rfl
    have h2 : (2 : ℕ) ^ (d + 1) = 2 * 2 ^ d := by rw [pow_succ, Nat.mul_comm]
    rw [h1, h2]
    generalize (2 : ℕ) ^ d = p
    omega

/-- Witness for C3 amended at d = 1: the output at x = 1/4 lies in the
level set, and the level set has 2^2 - 1 = 3 elements. -/
theorem bitcrusher_quant_levels_witness :
    bitcrusherQuantAt 1 (1 / 4) ∈ quantLevels 1 ∧ (quantLevels 1).card = 2 ^ 2 - 1 :=
  ⟨by
      have := (bitcrusher_quant_levels 1 (by norm_num) (by norm_num)).1 (1 / 4)
        (by norm_num) (by norm_num)
      exact_mod_cast this,
    (bitcrusher_quant_levels 1 (by norm_num) (by norm_num)).2.2⟩

/-! ## PitchBend (PitchBend.h)

The MIDI-note-to-frequency conversion in startPitchBend is external JUCE
library code; the target and initial frequencies it produces enter the
model as the rational parameters of startPitchBend below. -/

structure PitchBend where
  inputFreq : ℚ
  currentFreq : ℚ
  bendDelta : ℚ
  bendSamples : ℤ

/-- PitchBend::startPitchBend: store the target frequency, start at the
initial (offset) frequency and spread the difference over bendSamples. -/
def startPitchBend (inputFreq initFreq : ℚ) (bendSamples : ℤ) : PitchBend :=
  { inputFreq := inputFreq
    currentFreq := initFreq
    bendDelta := (inputFreq - initFreq) / (bendSamples : ℚ)
    bendSamples := bendSamples }

/-- PitchBend::process: step currentFreq by bendDelta while strictly on the
start side of the target (direction-aware), else pin it to inputFreq; the
returned sample is the updated currentFreq. -/
def PitchBend.process (st : PitchBend) : ℚ × PitchBend :=
  if (st.bendDelta > 0 ∧ st.currentFreq < st.inputFreq) ∨
      (st.bendDelta < 0 ∧ st.currentFreq > st.inputFreq) then
    let c := st.currentFreq + st.bendDelta
    (c, { st with currentFreq := c })
  else
    (st.inputFreq, { st with currentFreq := st.inputFreq })

/-- State update of one PitchBend::process call. -/
def pbStep (st : PitchBend) : PitchBend := st.process.2

/-- PitchBend state after k process() calls following startPitchBend. -/
def pbAfter (T c0 : ℚ) (n : ℤ) (k : ℕ) : PitchBend :=
  pbStep^[k] (startPitchBend T c0 n)

theorem pbStep_inputFreq (st : PitchBend) : (pbStep st).inputFreq = st.inputFreq := by
  unfold pbStep PitchBend.process
  split <;> rfl

theorem pbStep_bendDelta (st : PitchBend) : (pbStep st).bendDelta = st.bendDelta := by
  unfold pbStep PitchBend.process
  split <;> rfl

theorem pbStep_currentFreq (st : PitchBend) :
    (pbStep st).currentFreq =
      if (st.bendDelta > 0 ∧ st.currentFreq < st.inputFreq) ∨
          (st.bendDelta < 0 ∧ st.currentFreq > st.inputFreq)
      then st.currentFreq + st.bendDelta else st.inputFreq := by
  unfold pbStep PitchBend.process
  split <;> rfl

theorem pbAfter_inputFreq (T c0 : ℚ) (n : ℤ) (k : ℕ) : (pbAfter T c0 n k).inputFreq = T := by
  induction k with
  | zero => rfl
  | succ k ih =>
    rw [pbAfter, Function.iterate_succ_apply', ← pbAfter, pbStep_inputFreq, ih]

theorem pbAfter_bendDelta (T c0 : ℚ) (n : ℤ) (k : ℕ) :
    (pbAfter T c0 n k).bendDelta = (T - c0) / (n : ℚ) := by
  induction k with
  | zero => rfl
  | succ k ih =>
    rw [pbAfter, Function.iterate_succ_apply', ← pbAfter, pbStep_bendDelta, ih]

/-- Closed form of the bend ramp: after k calls the frequency is
c0 + k * delta for k ≤ bendSamples, and exactly the target after that. -/
theorem pbAfter_currentFreq (T c0 : ℚ) (n : ℤ) (hn : 1 ≤ n) (k : ℕ) :
    (pbAfter T c0 n k).currentFreq =
      if (k : ℤ) ≤ n then c0 + (k : ℚ) * ((T - c0) / (n : ℚ)) else T := by
  have hnQ : (0 : ℚ) < (n : ℚ) := by exact_mod_cast hn
  have hnne : (n : ℚ) ≠ 0 := ne_of_gt hnQ
  have hTc : T - c0 = (n : ℚ) * ((T - c0) / (n : ℚ)) := by field_simp
  set δ : ℚ := (T - c0) / (n : ℚ) with hδ
  induction k with
  | zero =>
    rw [if_pos (by exact_mod_cast by omega : ((0 : ℕ) : ℤ) ≤ n)]
    norm_num [pbAfter, startPitchBend]
  | succ k ih =>
    have hstep : pbAfter T c0 n (k + 1) = pbStep (pbAfter T c0 n k) := by
      rw [pbAfter, Function.iterate_succ_apply', ← pbAfter]
    rw [hstep, pbStep_currentFreq, pbAfter_inputFreq, pbAfter_bendDelta, ← hδ, ih]
    push_cast
    by_cases hk : (k : ℤ) ≤ n
    · rw [if_pos hk]
      by_cases hk1 : (k : ℤ) + 1 ≤ n
      · rw [if_pos hk1]
        have hkn : (k : ℚ) + 1 ≤ (n : ℚ) := by exact_mod_cast hk1
        rcases lt_trichotomy δ 0 with hd | hd | hd
        · have hprod : ((n : ℚ) - (k : ℚ)) * δ < 0 :=
            mul_neg_of_pos_of_neg (by linarith) hd
          have hgt : c0 + (k : ℚ) * δ > T := by nlinarith [hTc, hprod]
          rw [if_pos (Or.inr ⟨hd, hgt⟩)]
          ring
        · have hT : T = c0 := by rw [hd, mul_zero] at hTc; linarith
          rw [if_neg (by
            rintro (⟨h1, _⟩ | ⟨h1, _⟩) <;> rw [hd] at h1 <;> exact lt_irrefl 0 h1)]
          rw [hd, hT]; ring
        · have hprod : ((n : ℚ) - (k : ℚ)) * δ > 0 :=
            mul_pos (by linarith) hd
          have hlt : c0 + (k : ℚ) * δ < T := by nlinarith [hTc, hprod]
          rw [if_pos (Or.inl ⟨hd, hlt⟩)]
          ring
      · rw [if_neg hk1]
        have hkn : (k : ℤ) = n := by omega
        have hkQ : (k : ℚ) = (n : ℚ) := by exact_mod_cast hkn
        have hcur : c0 + (k : ℚ) * δ = T := by rw [hkQ]; linarith [hTc]
        rw [hcur, if_neg (by
          rintro (⟨_, h2⟩ | ⟨_, h2⟩) <;> exact lt_irrefl T h2)]
    · rw [if_neg hk, if_neg (by omega : ¬ ((k : ℤ) + 1 ≤ n)), if_neg (by
        rintro (⟨_, h2⟩ | ⟨_, h2⟩) <;> exact lt_irrefl T h2)]

/-- C4: starting a bend toward target T from c0 spread over n ≥ 1 samples,
the frequency after any number k of process() calls never lies strictly
past T in the direction of bendDelta, and once it has reached T every later
call returns exactly T. -/
theorem pitchbend_no_overshoot_and_pinned (T c0 : ℚ) (n : ℤ) (hn : 1 ≤ n) (k : ℕ) :
    (0 < (startPitchBend T c0 n).bendDelta → (pbAfter T c0 n k).currentFreq ≤ T) ∧
      ((startPitchBend T c0 n).bendDelta < 0 → T ≤ (pbAfter T c0 n k).currentFreq) ∧
      ((pbAfter T c0 n k).currentFreq = T →
        ∀ j : ℕ, k ≤ j → (pbAfter T c0 n j).currentFreq = T) := by
  have hδdef : (startPitchBend T c0 n).bendDelta = (T - c0) / (n : ℚ) := rfl
  have hnQ : (0 : ℚ) < (n : ℚ) := by exact_mod_cast hn
  have hnne : (n : ℚ) ≠ 0 := ne_of_gt hnQ
  have hTc : T - c0 = (n : ℚ) * ((T - c0) / (n : ℚ)) := by field_simp
  set δ : ℚ := (T - c0) / (n : ℚ) with hδ
  refine ⟨?_, ?_, ?_⟩
  · intro hd
    rw [hδdef] at hd
    rw [pbAfter_currentFreq T c0 n hn k]
    by_cases hk : (k : ℤ) ≤ n
    · rw [if_pos hk]
      have hkQ : (k : ℚ) ≤ (n : ℚ) := by exact_mod_cast hk
      have hprod : (0 : ℚ) ≤ ((n : ℚ) - (k : ℚ)) * δ :=
        mul_nonneg (by linarith) (le_of_lt hd)
      nlinarith [hTc, hprod]
    · rw [if_neg hk]
  · intro hd
    rw [hδdef] at hd
    rw [pbAfter_currentFreq T c0 n hn k]
    by_cases hk : (k : ℤ) ≤ n
    · rw [if_pos hk]
      have hkQ : (k : ℚ) ≤ (n : ℚ) := by exact_mod_cast hk
      have hprod : ((n : ℚ) - (k : ℚ)) * δ ≤ 0 :=
        mul_nonpos_iff.mpr (Or.inl ⟨by linarith, le_of_lt hd⟩)
      nlinarith [hTc, hprod]
    · rw [if_neg hk]
  · intro hreach j hj
    rw [pbAfter_currentFreq T c0 n hn k] at hreach
    rw [pbAfter_currentFreq T c0 n hn j]
    by_cases hj2 : (j : ℤ) ≤ n
    · rw [if_pos hj2, ← hδ]
      have hjk : (k : ℤ) ≤ (j : ℤ) := by exact_mod_cast hj
      have hk2 : (k : ℤ) ≤ n := le_trans hjk hj2
      rw [if_pos hk2, ← hδ] at hreach
      have hzero : ((n : ℚ) - (k : ℚ)) * δ = 0 := by nlinarith [hTc, hreach]
      rcases mul_eq_zero.mp hzero with h0 | h0
      · have hkn : (k : ℚ) = (n : ℚ) := by linarith
        have hkn2 : (k : ℤ) = n := by exact_mod_cast hkn
        have hjQ : (j : ℚ) = (k : ℚ) := by exact_mod_cast (by omega : (j : ℤ) = (k : ℤ))
        rw [hjQ]; exact hreach
      · rw [h0] at hreach ⊢
        simp only [mul_zero, add_zero] at hreach ⊢
        exact hreach
    · rw [if_neg hj2]

/-- Witness for C4 at T = 10, c0 = 0, n = 2: after one call the frequency
has not overshot, and once reached (after 2 calls) it stays at 10. -/
theorem pitchbend_no_overshoot_and_pinned_witness :
    (pbAfter 10 0 2 1).currentFreq ≤ 10 ∧ (pbAfter 10 0 2 5).currentFreq = 10 := by
  have hreach : (pbAfter 10 0 2 2).currentFreq = 10 := by
    rw [pbAfter_currentFreq 10 0 2 (by norm_num) 2]
    norm_num
  refine ⟨(pitchbend_no_overshoot_and_pinned 10 0 2 (by norm_num) 1).1
      (by norm_num [startPitchBend]), ?_⟩
  exact (pitchbend_no_overshoot_and_pinned 10 0 2 (by norm_num) 2).2.2 hreach 5 (by norm_num)

/-! ## Arpeggiator (Arpeggiator.h)

The control parameters (pattern selector, octave selector, speed) are read
from the host parameter tree; a run with fixed controls is modelled by
fixing the selected pattern, numOctaves and samplesPerNote. The C++
getNextFrequency returns juce MidiMessage getMidiNoteInHertz(currentNote),
a strictly monotone injective function of the MIDI note, so the model
returns the MIDI note number: two calls return the same frequency exactly
when they return the same note. -/

structure Arpeggiator where
  pattern : List ℤ
  noteIndex : ℤ
  noteIncrement : ℤ
  numOctaves : ℤ
  rootNote : ℤ
  currentNote : ℤ
  samplesPerNote : ℤ
  sampleCounter : ℤ

/-- The fixed pattern table of switchArpPattern for selector values 0..7
(selector 8 draws a random 7-element pattern, covered in the theorems by
the general hypothesis that the pattern has length at least 2). -/
def arpPatternOf (c : ℤ) : List ℤ :=
  if c = 0 then [0, 3]
  else if c = 1 then [0, 4]
  else if c = 2 then [0, 5]
  else if c = 3 then [0, 7]
  else if c = 4 then [0, 3, 7]
  else if c = 5 then [0, 4, 7]
  else if c = 6 then [0, 4, 7, 11]
  else if c = 7 then [0, 4, 7, 11, 14]
  else []

/-- Arpeggiator::startArpeggio: remember the root, start the current note
at the root, reset octave increment and sample counter, and start at
noteIndex 1 (the second pattern entry, the root having just been played);
switchArpPattern and switchArpOctave resolve the pattern and numOctaves
from the fixed controls. -/
def startArpeggio (pattern : List ℤ) (numOctaves rootNote samplesPerNote : ℤ) : Arpeggiator :=
  { pattern := pattern
    noteIndex := 1
    noteIncrement := 0
    numOctaves := numOctaves
    rootNote := rootNote
    currentNote := rootNote
    samplesPerNote := samplesPerNote
    sampleCounter := 0 }

/-- Arpeggiator::incrementPattern: advance noteIndex; at the end of the
pattern either wrap to 0 and bump (mod numOctaves) the octave increment, or
hold at the last index when numOctaves = 0. -/
def Arpeggiator.incrementPattern (st : Arpeggiator) : Arpeggiator :=
  let noteIndex := st.noteIndex + 1
  if noteIndex ≥ (st.pattern.length : ℤ) then
    if st.numOctaves > 0 then
      let noteIncrement := st.noteIncrement + 1
      { st with noteIndex := 0
                noteIncrement := if noteIncrement ≥ st.numOctaves then 0 else noteIncrement }
    else
      { st with noteIndex := (st.pattern.length : ℤ) - 1 }
  else
    { st with noteIndex := noteIndex }

/-- Arpeggiator::getNextFrequency: when the sample counter has reached
samplesPerNote, reset it, read pattern[noteIndex] (guarded by noteIndex ≤
pattern.size(), the boundary check kept exactly as in the source) to form
the new current note, and advance the pattern; always bump the counter and
return the current note. -/
def Arpeggiator.getNextFrequency (st : Arpeggiator) : ℤ × Arpeggiator :=
  let st1 :=
    if st.sampleCounter ≥ st.samplesPerNote then
      let st0 : Arpeggiator := { st with sampleCounter := 0 }
      if st0.noteIndex ≤ (st0.pattern.length : ℤ) then
        let newNote := st0.rootNote + st0.pattern.getD st0.noteIndex.toNat 0 +
          12 * st0.noteIncrement
        Arpeggiator.incrementPattern { st0 with currentNote := newNote }
      else st0
    else st
  let st2 : Arpeggiator := { st1 with sampleCounter := st1.sampleCounter + 1 }
  (st2.currentNote, st2)

/-- State update of one getNextFrequency() call. -/
def arpStep (st : Arpeggiator) : Arpeggiator := st.getNextFrequency.2

theorem incrementPattern_pattern (st : Arpeggiator) :
    st.incrementPattern.pattern = st.pattern := by
  unfold Arpeggiator.incrementPattern
  dsimp only
  split
  · split <;> rfl
  · rfl

theorem incrementPattern_numOctaves (st : Arpeggiator) :
    st.incrementPattern.numOctaves = st.numOctaves := by
  unfold Arpeggiator.incrementPattern
  dsimp only
  split
  · split <;> rfl
  · rfl

theorem incrementPattern_noteIndex_bounds (st : Arpeggiator)
    (h0 : 0 ≤ st.noteIndex) (hp : 1 ≤ st.pattern.length) :
    0 ≤ st.incrementPattern.noteIndex ∧
      st.incrementPattern.noteIndex < (st.pattern.length : ℤ) := by
  unfold Arpeggiator.incrementPattern
  dsimp only
  split
  · split
    · exact ⟨by dsimp only; omega, by dsimp only; omega⟩
    · exact ⟨by dsimp only; omega, by dsimp only; omega⟩
  · rename_i hlt
    exact ⟨by dsimp only; omega, by dsimp only; omega⟩

theorem arpStep_pattern (st : Arpeggiator) : (arpStep st).pattern = st.pattern := by
  unfold arpStep Arpeggiator.getNextFrequency
  dsimp only
  split
  · split
    · simp [incrementPattern_pattern]
    · rfl
  · rfl

theorem arpStep_numOctaves (st : Arpeggiator) : (arpStep st).numOctaves = st.numOctaves := by
  unfold arpStep Arpeggiator.getNextFrequency
  dsimp only
  split
  · split
    · simp [incrementPattern_numOctaves]
    · rfl
  · rfl

theorem arpStep_noteIndex_bounds (st : Arpeggiator)
    (h0 : 0 ≤ st.noteIndex) (h1 : st.noteIndex < (st.pattern.length : ℤ))
    (hp : 1 ≤ st.pattern.length) :
    0 ≤ (arpStep st).noteIndex ∧ (arpStep st).noteIndex < (st.pattern.length : ℤ) := by
  unfold arpStep Arpeggiator.getNextFrequency
  dsimp only
  split
  · split
    · have hb := incrementPattern_noteIndex_bounds
        { st with sampleCounter := 0,
                  currentNote := st.rootNote + st.pattern.getD st.noteIndex.toNat 0 +
                    12 * st.noteIncrement }
        (by simpa using h0) (by simpa using hp)
      simpa using hb
    · exact ⟨h0, h1⟩
  · exact ⟨h0, h1⟩

/-- C9: from startArpeggio (every selectable pattern has length ≥ 2) and
after any number of getNextFrequency() calls, noteIndex stays inside
[0, pattern.length), so the pattern read inside the next call is in
bounds: the boundary state noteIndex = pattern.size() is unreachable even
though the guard only checks noteIndex ≤ pattern.size(). -/
theorem arp_noteIndex_in_bounds (pattern : List ℤ) (numOctaves root N : ℤ) (k : ℕ)
    (hp : 2 ≤ pattern.length) :
    0 ≤ (arpStep^[k] (startArpeggio pattern numOctaves root N)).noteIndex ∧
      (arpStep^[k] (startArpeggio pattern numOctaves root N)).noteIndex <
        (pattern.length : ℤ) := by
  have hmain : ∀ k : ℕ,
      (arpStep^[k] (startArpeggio pattern numOctaves root N)).pattern = pattern ∧
        0 ≤ (arpStep^[k] (startArpeggio pattern numOctaves root N)).noteIndex ∧
        (arpStep^[k] (startArpeggio pattern numOctaves root N)).noteIndex <
          (pattern.length : ℤ) := by
    intro k
    induction k with
    | zero =>
      refine ⟨rfl, by norm_num [startArpeggio], ?_⟩
      norm_num [startArpeggio]
      omega
    | succ k ih =>
      obtain ⟨ihp, ih0, ih1⟩ := ih
      rw [Function.iterate_succ_apply']
      refine ⟨by rw [arpStep_pattern, ihp], ?_⟩
      have hb := arpStep_noteIndex_bounds (arpStep^[k] (startArpeggio pattern numOctaves root N))
        ih0 (by rw [ihp]; exact ih1) (by rw [ihp]; omega)
      rw [ihp] at hb
      exact hb
  exact (hmain k).2

/-- Witness for C9: pattern [0,3], numOctaves 0, root 60, samplesPerNote 1,
after 3 calls. -/
theorem arp_noteIndex_in_bounds_witness :
    0 ≤ (arpStep^[3] (startArpeggio (arpPatternOf 0) 0 60 1)).noteIndex ∧
      (arpStep^[3] (startArpeggio (arpPatternOf 0) 0 60 1)).noteIndex <
        ((arpPatternOf 0).length : ℤ) :=
  arp_noteIndex_in_bounds (arpPatternOf 0) 0 60 1 3 (by norm_num [arpPatternOf])

/-! ## Claims C5 and C6: arpeggiator hold and octave wrap -/

/-- Output and state of getNextFrequency when the sample counter has not
yet reached samplesPerNote: the held current note, counter bumped. -/
theorem arp_getNext_no_advance (st : Arpeggiator) (h : st.sampleCounter < st.samplesPerNote) :
    st.getNextFrequency = (st.currentNote, { st with sampleCounter := st.sampleCounter + 1 }) := by
  unfold Arpeggiator.getNextFrequency
  dsimp only
  rw [if_neg (not_le.mpr h)]

/-- One due call on the minor-third pattern at noteIndex 1 with
numOctaves 0: emits root + 3 and holds at the last index. -/
theorem arp_c5_advance (r N c cur : ℤ) (hc : N ≤ c) :
    Arpeggiator.getNextFrequency
        { pattern := [0, 3], noteIndex := 1, noteIncrement := 0, numOctaves := 0,
          rootNote := r, currentNote := cur, samplesPerNote := N, sampleCounter := c } =
      (r + 3,
        { pattern := [0, 3], noteIndex := 1, noteIncrement := 0, numOctaves := 0,
          rootNote := r, currentNote := r + 3, samplesPerNote := N, sampleCounter := 1 }) := by
  unfold Arpeggiator.getNextFrequency Arpeggiator.incrementPattern
  dsimp only
  rw [if_pos hc]
  norm_num [List.getD]

/-- During the first N calls after startArpeggio on the minor-third pattern
nothing has advanced yet: only the sample counter has grown. -/
theorem arp_c5_phase1 (r : ℤ) (N : ℕ) (k : ℕ) (hk : k ≤ N) :
    arpStep^[k] (startArpeggio (arpPatternOf 0) 0 r (N : ℤ)) =
      { pattern := [0, 3], noteIndex := 1, noteIncrement := 0, numOctaves := 0,
        rootNote := r, currentNote := r, samplesPerNote := (N : ℤ), sampleCounter := (k : ℤ) } := by
  induction k with
  | zero => rfl
  | succ k ih =>
    rw [Function.iterate_succ_apply', ih (by omega)]
    rw [arpStep, arp_getNext_no_advance _ (by dsimp only; exact_mod_cast Nat.lt_of_succ_le hk)]
    dsimp only
    rw [show ((k : ℤ) + 1) = ((k + 1 : ℕ) : ℤ) by push_cast; ring]

/-- The holding regime of the claim: after the single pattern traversal the
state keeps pattern [0,3], index pinned at the last element, octave
increment 0, current note root + 3, and a counter in [1, N]. -/
def ArpHold (r : ℤ) (N : ℕ) (st : Arpeggiator) : Prop :=
  st.pattern = [0, 3] ∧ st.noteIndex = 1 ∧ st.noteIncrement = 0 ∧ st.numOctaves = 0 ∧
    st.rootNote = r ∧ st.currentNote = r + 3 ∧ st.samplesPerNote = (N : ℤ) ∧
    1 ≤ st.sampleCounter ∧ st.sampleCounter ≤ (N : ℤ)

theorem arp_c5_hold_step (r : ℤ) (N : ℕ) (st : Arpeggiator) (h : ArpHold r N st) :
    st.getNextFrequency.1 = r + 3 ∧ ArpHold r N (arpStep st) := by
  obtain ⟨pat, idx, inc, oct, root, cur, spn, cnt⟩ := st
  obtain ⟨hpat, hidx, hinc, hoct, hroot, hcur, hspn, hcnt1, hcnt2⟩ := h
  dsimp only at hpat hidx hinc hoct hroot hcur hspn hcnt1 hcnt2
  subst hpat hidx hinc hoct hroot hcur hspn
  rcases lt_or_ge cnt (N : ℤ) with hlt | hge
  · rw [arpStep, arp_getNext_no_advance _ (by dsimp only; exact hlt)]
    exact ⟨rfl, rfl, rfl, rfl, rfl, rfl, rfl, rfl, by dsimp only; omega,
      by dsimp only; omega⟩
  · rw [arpStep, arp_c5_advance root (N : ℤ) cnt (root + 3) hge]
    exact ⟨rfl, rfl, rfl, rfl, rfl, rfl, rfl, rfl, by dsimp only; omega,
      by dsimp only; omega⟩

theorem arp_c5_in_hold (r : ℤ) (N : ℕ) (hN : 1 ≤ N) (j : ℕ) :
    ArpHold r N (arpStep^[N + 1 + j] (startArpeggio (arpPatternOf 0) 0 r (N : ℤ))) := by
  induction j with
  | zero =>
    rw [show N + 1 + 0 = N + 1 from rfl, Function.iterate_succ_apply',
      arp_c5_phase1 r N N le_rfl, arpStep, arp_c5_advance r (N : ℤ) (N : ℤ) r le_rfl]
    exact ⟨rfl, rfl, rfl, rfl, rfl, rfl, rfl, le_refl 1, by dsimp only; exact_mod_cast hN⟩
  | succ j ih =>
    rw [show N + 1 + (j + 1) = (N + 1 + j) + 1 by omega, Function.iterate_succ_apply']
    exact (arp_c5_hold_step r N _ ih).2

/-- C5: on pattern [0,3] with numOctaves 0 and samplesPerNote N ≥ 1, once
the pattern has been traversed (from call N+1 on), every further
getNextFrequency() call returns the note root + 3 — the frequency of the
last pattern element — and the progression is pinned: noteIndex stays at
the last index 1 with octave increment 0 and current note root + 3. -/
theorem arp_hold_last_note (r : ℤ) (N : ℕ) (hN : 1 ≤ N) (k : ℕ) (hk : N ≤ k) :
    (arpStep^[k] (startArpeggio (arpPatternOf 0) 0 r (N : ℤ))).getNextFrequency.1 = r + 3 ∧
      (arpStep^[k + 1] (startArpeggio (arpPatternOf 0) 0 r (N : ℤ))).noteIndex = 1 ∧
      (arpStep^[k + 1] (startArpeggio (arpPatternOf 0) 0 r (N : ℤ))).noteIncrement = 0 ∧
      (arpStep^[k + 1] (startArpeggio (arpPatternOf 0) 0 r (N : ℤ))).currentNote = r + 3 := by
  rcases Nat.eq_or_lt_of_le hk with heq | hlt
  · subst heq
    have hadv : arpStep^[N + 1] (startArpeggio (arpPatternOf 0) 0 r (N : ℤ)) =
        { pattern := [0, 3], noteIndex := 1, noteIncrement := 0, numOctaves := 0,
          rootNote := r, currentNote := r + 3, samplesPerNote := (N : ℤ), sampleCounter := 1 } := by
      rw [Function.iterate_succ_apply', arp_c5_phase1 r N N le_rfl, arpStep,
        arp_c5_advance r (N : ℤ) (N : ℤ) r le_rfl]
    refine ⟨?_, ?_, ?_, ?_⟩
    · rw [arp_c5_phase1 r N N le_rfl, arp_c5_advance r (N : ℤ) (N : ℤ) r le_rfl]
    · rw [hadv]
    · rw [hadv]
    · rw [hadv]
  · obtain ⟨j, rfl⟩ : ∃ j, k = N + 1 + j := ⟨k - (N + 1), by omega⟩
    have hhold := arp_c5_in_hold r N hN j
    have hnext : ArpHold r N (arpStep^[N + 1 + j + 1] (startArpeggio (arpPatternOf 0) 0 r (N : ℤ))) := by
      rw [Function.iterate_succ_apply']
      exact (arp_c5_hold_step r N _ hhold).2
    exact ⟨(arp_c5_hold_step r N _ hhold).1, hnext.2.1, hnext.2.2.1, hnext.2.2.2.2.2.1⟩

/-- Witness for C5 at root 60, N = 1, k = 1 (the second call). -/
theorem arp_hold_last_note_witness :
    (arpStep^[1] (startArpeggio (arpPatternOf 0) 0 60 ((1 : ℕ) : ℤ))).getNextFrequency.1 = 63 ∧
      (arpStep^[2] (startArpeggio (arpPatternOf 0) 0 60 ((1 : ℕ) : ℤ))).noteIndex = 1 := by
  have h := arp_hold_last_note 60 1 (le_refl 1) 1 (le_refl 1)
  exact ⟨h.1, h.2.1⟩

/-- The note emitted by the next due pattern advance:
rootNote + pattern[noteIndex] + 12 * noteIncrement. -/
def arpEmittedNote (st : Arpeggiator) : ℤ :=
  st.rootNote + st.pattern.getD st.noteIndex.toNat 0 + 12 * st.noteIncrement

/-- C6: on pattern [0,4,7] with numOctaves 2, the (noteIndex,
noteIncrement) progression driven by incrementPattern is periodic with
period 3 * 2 = 6 from the startArpeggio state: after 6 advances the whole
state (in particular noteIncrement = 0) has returned, and the emitted note
sequence repeats identically. -/
theorem arp_octave_wrap_period (r : ℤ) (k : ℕ) :
    (Arpeggiator.incrementPattern^[6] (startArpeggio (arpPatternOf 5) 2 r 1)).noteIncrement = 0 ∧
      Arpeggiator.incrementPattern^[k + 6] (startArpeggio (arpPatternOf 5) 2 r 1) =
        Arpeggiator.incrementPattern^[k] (startArpeggio (arpPatternOf 5) 2 r 1) ∧
      arpEmittedNote (Arpeggiator.incrementPattern^[k + 6] (startArpeggio (arpPatternOf 5) 2 r 1)) =
        arpEmittedNote (Arpeggiator.incrementPattern^[k] (startArpeggio (arpPatternOf 5) 2 r 1)) := by
  have h6 : Arpeggiator.incrementPattern^[6] (startArpeggio (arpPatternOf 5) 2 r 1) =
      startArpeggio (arpPatternOf 5) 2 r 1 := rfl
  have hper : Arpeggiator.incrementPattern^[k + 6] (startArpeggio (arpPatternOf 5) 2 r 1) =
      Arpeggiator.incrementPattern^[k] (startArpeggio (arpPatternOf 5) 2 r 1) := by
    rw [Function.iterate_add_apply, h6]
  exact ⟨by rw [h6]; rfl, hper, by rw [hper]⟩

/-! ## Phasor (PolyBLEPOscillator.h) -/

structure Phasor where
  frequency : ℚ
  sampleRate : ℚ
  phase : ℚ
  phaseDelta : ℚ

/-- Default member initializers of class Phasor. -/
def phasorInit : Phasor :=
  { frequency := 0, sampleRate := 44100, phase := 0, phaseDelta := 0 }

/-- Phasor::updatePhase: add phaseDelta and wrap by subtracting 1 only when
the new phase exceeds 1.0 strictly. -/
def Phasor.updatePhase (st : Phasor) : Phasor :=
  let p := st.phase + st.phaseDelta
  { st with phase := if p > 1 then p - 1 else p }

/-- Phasor::setSampleRate. -/
def Phasor.setSampleRate (st : Phasor) (SR : ℚ) : Phasor := { st with sampleRate := SR }

/-- Phasor::setFrequency: recompute phaseDelta = frequency / sampleRate. -/
def Phasor.setFrequency (st : Phasor) (Freq : ℚ) : Phasor :=
  { st with frequency := Freq, phaseDelta := Freq / st.sampleRate }

/-- Base-class Phasor::output, the identity on the phase. -/
def Phasor.output (p : ℚ) : ℚ := p

/-- Phasor::process: update the phase, return output(phase). -/
def Phasor.process (st : Phasor) : ℚ × Phasor :=
  (Phasor.output st.updatePhase.phase, st.updatePhase)

/-- Phasor::getPhase: update the phase and return it. -/
def Phasor.getPhase (st : Phasor) : ℚ × Phasor :=
  (st.updatePhase.phase, st.updatePhase)

/-- State update of one Phasor::process (or getPhase) tick. -/
def phasorStep (st : Phasor) : Phasor := st.process.2

theorem phasorStep_phaseDelta (st : Phasor) : (phasorStep st).phaseDelta = st.phaseDelta := rfl

theorem phasorIter_phaseDelta (st : Phasor) (k : ℕ) :
    (phasorStep^[k] st).phaseDelta = st.phaseDelta := by
  induction k with
  | zero => rfl
  | succ k ih => rw [Function.iterate_succ_apply', phasorStep_phaseDelta, ih]

/-- C8 counterexample: with frequency = sampleRate (phaseDelta = 1, a legal
setting reached through setFrequency), the very first tick leaves the phase
at exactly 1.0, which is not in [0,1): the wrap fires only strictly above
1.0. -/
theorem phasor_phase_counterexample :
    (phasorStep (phasorInit.setFrequency 44100)).phase = 1 ∧
      ¬ (phasorStep (phasorInit.setFrequency 44100)).phase < 1 := by
  norm_num [phasorStep, Phasor.process, Phasor.updatePhase, Phasor.setFrequency, phasorInit,
    Phasor.output]

theorem phasorStep_phase_bounds (st : Phasor) (h0 : 0 ≤ st.phase) (h1 : st.phase ≤ 1)
    (hd0 : 0 ≤ st.phaseDelta) (hd1 : st.phaseDelta ≤ 1) :
    0 ≤ (phasorStep st).phase ∧ (phasorStep st).phase ≤ 1 := by
  unfold phasorStep Phasor.process Phasor.updatePhase
  dsimp only
  split_ifs with h <;> constructor <;> linarith

/-- C8 amended: the phase stays in the closed interval [0,1] (the endpoint
1.0 is attainable, so [0,1) fails) after every process()/getPhase() tick,
provided 0 ≤ phaseDelta ≤ 1, i.e. 0 ≤ frequency ≤ sampleRate; the wrap
subtracts 1 only when the advanced phase strictly exceeds 1.0. -/
theorem phasor_phase_in_unit_closed (st : Phasor) (h0 : 0 ≤ st.phase) (h1 : st.phase ≤ 1)
    (hd0 : 0 ≤ st.phaseDelta) (hd1 : st.phaseDelta ≤ 1) (k : ℕ) :
    0 ≤ (phasorStep^[k] st).phase ∧ (phasorStep^[k] st).phase ≤ 1 := by
  induction k with
  | zero => exact ⟨h0, h1⟩
  | succ k ih =>
    rw [Function.iterate_succ_apply']
    exact phasorStep_phase_bounds _ ih.1 ih.2
      (by rw [phasorIter_phaseDelta]; exact hd0)
      (by rw [phasorIter_phaseDelta]; exact hd1)

/-- Witness for C8 amended: phase 0, phaseDelta 1/2, three ticks. -/
theorem phasor_phase_in_unit_closed_witness :
    0 ≤ (phasorStep^[3] ({ frequency := 22050, sampleRate := 44100, phase := 0, phaseDelta := 1 / 2 } : Phasor)).phase ∧
      (phasorStep^[3] ({ frequency := 22050, sampleRate := 44100, phase := 0, phaseDelta := 1 / 2 } : Phasor)).phase ≤ 1 :=
  phasor_phase_in_unit_closed _ (by norm_num) (by norm_num) (by norm_num) (by norm_num) 3

/-! ## Vibrato (Vibrato.h)

The vibrato owns a SinOsc LFO (a Phasor whose output is sin(2*pi*phase));
the sine is the one transcendental of the repository and is modelled over
the reals, while all state stepping stays rational. The controls vibSustain,
vibSpeed, vibAmount are read from the host parameter tree; a run with fixed
controls passes them as fixed rational parameters. -/

/-- SinOsc::output: std::sin(p * 2.0 * M_PI). -/
noncomputable def SinOsc.output (p : ℚ) : ℝ := Real.sin ((p : ℝ) * 2 * Real.pi)

/-- SinOsc::process: the inherited Phasor::process with the sine output. -/
noncomputable def SinOsc.process (st : Phasor) : ℝ × Phasor :=
  (SinOsc.output st.updatePhase.phase, st.updatePhase)

structure Vibrato where
  vibratoLFO : Phasor
  VibratoFreq : ℚ
  VibratoAmount : ℚ
  sampleRate : ℚ
  sustainSamples : ℤ
  sustainCounter : ℤ

/-- Default member initializers of class Vibrato. -/
def vibratoInit : Vibrato :=
  { vibratoLFO := phasorInit, VibratoFreq := 5, VibratoAmount := 1 / 200,
    sampleRate := 44100, sustainSamples := 0, sustainCounter := 0 }

/-- Vibrato::setSampleRate (also pushes the rate into the LFO). -/
def Vibrato.setSampleRate (st : Vibrato) (sr : ℚ) : Vibrato :=
  { st with sampleRate := sr, vibratoLFO := st.vibratoLFO.setSampleRate sr }

/-- Vibrato::updateSustainParameters: whenever newSustain * sampleRate
differs from the int field sustainSamples (a float-against-int comparison),
recompute sustainSamples by truncation and reset the counter; the
comparison stays true on every call when newSustain * sampleRate is not an
integer. -/
def Vibrato.updateSustainParameters (vibSustain : ℚ) (st : Vibrato) : Vibrato :=
  if vibSustain * st.sampleRate ≠ (st.sustainSamples : ℚ) then
    { st with sustainSamples := cppIntCast (vibSustain * st.sampleRate), sustainCounter := 0 }
  else st

/-- Vibrato::process: refresh the sustain parameters, return 0 (counter
bumped) while the counter is below the sustain window, else set the LFO
frequency to vibSpeed * 5 + 3 and return LFO output * (vibAmount / 20000). -/
noncomputable def Vibrato.process (vibSustain vibSpeed vibAmount : ℚ) (st : Vibrato) : ℝ × Vibrato :=
  let st1 := Vibrato.updateSustainParameters vibSustain st
  if st1.sustainCounter < st1.sustainSamples then
    (0, { st1 with sustainCounter := st1.sustainCounter + 1 })
  else
    let VibratoFreq := vibSpeed * 5 + 3
    let VibratoAmount := vibAmount / 20000
    let lfo1 := st1.vibratoLFO.setFrequency VibratoFreq
    ((SinOsc.process lfo1).1 * (VibratoAmount : ℝ),
      { st1 with VibratoFreq := VibratoFreq, VibratoAmount := VibratoAmount,
                 vibratoLFO := (SinOsc.process lfo1).2 })

/-- The state effect of Vibrato::process: identical to its second
component (the sine only ever affects the returned sample), written
sine-free so runs can be evaluated. -/
def Vibrato.step (vibSustain vibSpeed vibAmount : ℚ) (st : Vibrato) : Vibrato :=
  let st1 := Vibrato.updateSustainParameters vibSustain st
  if st1.sustainCounter < st1.sustainSamples then
    { st1 with sustainCounter := st1.sustainCounter + 1 }
  else
    let VibratoFreq := vibSpeed * 5 + 3
    let VibratoAmount := vibAmount / 20000
    let lfo1 := st1.vibratoLFO.setFrequency VibratoFreq
    { st1 with VibratoFreq := VibratoFreq, VibratoAmount := VibratoAmount,
               vibratoLFO := lfo1.updatePhase }

theorem vibrato_process_snd (vibSustain vibSpeed vibAmount : ℚ) (st : Vibrato) :
    (Vibrato.process vibSustain vibSpeed vibAmount st).2 =
      Vibrato.step vibSustain vibSpeed vibAmount st := by
  unfold Vibrato.process Vibrato.step SinOsc.process
  dsimp only
  split <;> rfl

/-- Vibrato state after k calls on a fresh instance at sample rate sr. -/
def vibratoRun (vibSustain vibSpeed vibAmount sr : ℚ) (k : ℕ) : Vibrato :=
  (Vibrato.step vibSustain vibSpeed vibAmount)^[k] (vibratoInit.setSampleRate sr)

/-- Return value of the (k+1)-th Vibrato::process call with fixed controls. -/
noncomputable def vibratoOutAt (vibSustain vibSpeed vibAmount sr : ℚ) (k : ℕ) : ℝ :=
  (Vibrato.process vibSustain vibSpeed vibAmount
    (vibratoRun vibSustain vibSpeed vibAmount sr k)).1

/-- The LFO phase after j post-sustain calls: the Phasor wrap iterated on
phaseDelta = delta from phase 0. -/
def lfoPhaseIter (delta : ℚ) (j : ℕ) : ℚ :=
  (fun p => if p + delta > 1 then p + delta - 1 else p + delta)^[j] 0

theorem cppIntCast_natCast (m : ℕ) : cppIntCast ((m : ℚ)) = (m : ℤ) := by
  unfold cppIntCast
  rw [if_pos (by positivity)]
  exact_mod_cast Int.floor_natCast m

theorem vibrato_step_gated (T sp a : ℚ) (st : Vibrato)
    (hS : T * st.sampleRate = (st.sustainSamples : ℚ))
    (hlt : st.sustainCounter < st.sustainSamples) :
    Vibrato.step T sp a st = { st with sustainCounter := st.sustainCounter + 1 } := by
  unfold Vibrato.step Vibrato.updateSustainParameters
  dsimp only
  rw [if_neg (not_not_intro hS), if_pos hlt]

theorem vibrato_step_lfo (T sp a : ℚ) (st : Vibrato)
    (hS : T * st.sampleRate = (st.sustainSamples : ℚ))
    (hge : st.sustainSamples ≤ st.sustainCounter) :
    Vibrato.step T sp a st =
      { st with VibratoFreq := sp * 5 + 3, VibratoAmount := a / 20000,
                vibratoLFO := (st.vibratoLFO.setFrequency (sp * 5 + 3)).updatePhase } := by
  unfold Vibrato.step Vibrato.updateSustainParameters
  dsimp only
  rw [if_neg (not_not_intro hS), if_neg (not_lt.mpr hge)]

theorem vibrato_out_gated (T sp a : ℚ) (st : Vibrato)
    (hS : T * st.sampleRate = (st.sustainSamples : ℚ))
    (hlt : st.sustainCounter < st.sustainSamples) :
    (Vibrato.process T sp a st).1 = 0 := by
  unfold Vibrato.process Vibrato.updateSustainParameters
  dsimp only
  rw [if_neg (not_not_intro hS), if_pos hlt]

theorem vibrato_out_lfo (T sp a : ℚ) (st : Vibrato)
    (hS : T * st.sampleRate = (st.sustainSamples : ℚ))
    (hge : st.sustainSamples ≤ st.sustainCounter) :
    (Vibrato.process T sp a st).1 =
      SinOsc.output ((st.vibratoLFO.setFrequency (sp * 5 + 3)).updatePhase.phase) *
        ((a / 20000 : ℚ) : ℝ) := by
  unfold Vibrato.process Vibrato.updateSustainParameters SinOsc.process
  dsimp only
  rw [if_neg (not_not_intro hS), if_neg (not_lt.mpr hge)]

theorem lfoPhaseIter_succ (delta : ℚ) (j : ℕ) :
    lfoPhaseIter delta (j + 1) =
      if lfoPhaseIter delta j + delta > 1 then lfoPhaseIter delta j + delta - 1
      else lfoPhaseIter delta j + delta := by
  rw [lfoPhaseIter, Function.iterate_succ_apply']
  rfl

/-- State of a fixed-control vibrato run when vibSustain * sampleRate is
exactly the integer m: the counter climbs to m while the LFO sleeps, then
the LFO advances once per call from phase 0. -/
theorem vibratoRun_char (T sp a sr : ℚ) (m : ℕ) (hTm : T * sr = (m : ℚ)) (k : ℕ) :
    vibratoRun T sp a sr k =
      if k = 0 then
        { vibratoLFO := { frequency := 0, sampleRate := sr, phase := 0, phaseDelta := 0 },
          VibratoFreq := 5, VibratoAmount := 1 / 200, sampleRate := sr,
          sustainSamples := 0, sustainCounter := 0 }
      else if k ≤ m then
        { vibratoLFO := { frequency := 0, sampleRate := sr, phase := 0, phaseDelta := 0 },
          VibratoFreq := 5, VibratoAmount := 1 / 200, sampleRate := sr,
          sustainSamples := (m : ℤ), sustainCounter := (k : ℤ) }
      else
        { vibratoLFO :=
            { frequency := sp * 5 + 3, sampleRate := sr,
              phase := lfoPhaseIter ((sp * 5 + 3) / sr) (k - m),
              phaseDelta := (sp * 5 + 3) / sr },
          VibratoFreq := sp * 5 + 3, VibratoAmount := a / 20000, sampleRate := sr,
          sustainSamples := (m : ℤ), sustainCounter := (m : ℤ) } := by
  induction k with
  | zero => rfl
  | succ k ih =>
    have hstep : vibratoRun T sp a sr (k + 1) = Vibrato.step T sp a (vibratoRun T sp a sr k) := by
      rw [vibratoRun, Function.iterate_succ_apply', ← vibratoRun]
    rw [hstep, ih]
    by_cases hk0 : k = 0
    · subst hk0
      rw [if_pos rfl]
      by_cases hm0 : m = 0
      · subst hm0
        rw [vibrato_step_lfo T sp a _
          (by show T * sr = ((0 : ℤ) : ℚ); rw [hTm]; norm_num)
          (by show (0 : ℤ) ≤ (0 : ℤ); exact le_refl _)]
        rw [if_neg (by omega), if_neg (by omega), show 0 + 1 - 0 = 1 by omega]
        simp [Phasor.setFrequency, Phasor.updatePhase, lfoPhaseIter, Vibrato.mk.injEq,
          Phasor.mk.injEq]
      · have hcond : T * sr ≠ ((0 : ℤ) : ℚ) := by rw [hTm]; simpa using hm0
        have hpos : (0 : ℤ) < (m : ℤ) := by exact_mod_cast Nat.pos_of_ne_zero hm0
        unfold Vibrato.step Vibrato.updateSustainParameters
        dsimp only
        rw [if_pos hcond, hTm, cppIntCast_natCast]
        dsimp only
        rw [if_pos hpos]
        rw [if_neg (by omega), if_pos (by omega)]
        norm_num [Vibrato.mk.injEq]
    · rw [if_neg hk0]
      by_cases hkm : k ≤ m
      · rw [if_pos hkm]
        by_cases hkm2 : k + 1 ≤ m
        · rw [vibrato_step_gated T sp a _
            (by show T * sr = ((m : ℤ) : ℚ); rw [hTm]; norm_num)
            (by show (k : ℤ) < (m : ℤ); omega)]
          rw [if_neg (by omega), if_pos hkm2]
          norm_num [Vibrato.mk.injEq]
        · have hkm3 : k = m := by omega
          subst hkm3
          rw [vibrato_step_lfo T sp a _
            (by show T * sr = ((k : ℤ) : ℚ); rw [hTm]; norm_num)
            (by show (k : ℤ) ≤ (k : ℤ); exact le_refl _)]
          rw [if_neg (by omega), if_neg (by omega), show k + 1 - k = 1 by omega]
          simp [Phasor.setFrequency, Phasor.updatePhase, lfoPhaseIter, Vibrato.mk.injEq,
            Phasor.mk.injEq]
      · rw [if_neg hkm]
        rw [vibrato_step_lfo T sp a _
          (by show T * sr = ((m : ℤ) : ℚ); rw [hTm]; norm_num)
          (by show (m : ℤ) ≤ (m : ℤ); exact le_refl _)]
        rw [if_neg (by omega), if_neg (by omega),
          show k + 1 - m = (k - m) + 1 by omega, lfoPhaseIter_succ]
        simp [Phasor.setFrequency, Phasor.updatePhase, lfoPhaseIter, Vibrato.mk.injEq,
          Phasor.mk.injEq]

theorem vibrato_out_reset_gated (T sp a : ℚ) (st : Vibrato)
    (hS : T * st.sampleRate ≠ (st.sustainSamples : ℚ))
    (hpos : 0 < cppIntCast (T * st.sampleRate)) :
    (Vibrato.process T sp a st).1 = 0 := by
  unfold Vibrato.process Vibrato.updateSustainParameters
  dsimp only
  rw [if_pos hS]
  rw [if_pos (by dsimp only; exact hpos)]

theorem vibrato_step_sampleRate (T sp a : ℚ) (st : Vibrato) :
    (Vibrato.step T sp a st).sampleRate = st.sampleRate := by
  unfold Vibrato.step Vibrato.updateSustainParameters
  dsimp only
  split_ifs <;> rfl

theorem vibratoRun_sampleRate (T sp a sr : ℚ) (k : ℕ) :
    (vibratoRun T sp a sr k).sampleRate = sr := by
  induction k with
  | zero => rfl
  | succ k ih =>
    rw [vibratoRun, Function.iterate_succ_apply', ← vibratoRun, vibrato_step_sampleRate, ih]

/-- C7 counterexample against the claimed nonzero output after the sustain
window. First run: sustain control 3/4 at sample rate 2, so sustainTime *
sampleRate = 3/2; the claim says calls strictly after the first round(3/2)
= 2 return nonzero, but the third call (index 2) returns 0 — the float/int
comparison in updateSustainParameters resets the counter on every call.
Second run: sustainTime * sampleRate = 1 but vibAmount = 0; the second call
(index 1, strictly after the first 1) returns LFO * 0 = 0. -/
theorem vibrato_gate_counterexample :
    vibratoOutAt (3 / 4) 0 1 2 2 = 0 ∧ vibratoOutAt (1 / 2) 0 0 2 1 = 0 := by
  constructor
  · have hsr := vibratoRun_sampleRate (3 / 4) 0 1 2 2
    have hni : ∀ z : ℤ, (z : ℚ) ≠ (3 / 4) * 2 := by
      intro z hz
      have h2 : ((2 * z : ℤ) : ℚ) = 3 := by push_cast; linarith
      have h3 : (2 * z : ℤ) = 3 := by exact_mod_cast h2
      omega
    rw [vibratoOutAt]
    rw [vibrato_out_reset_gated (3 / 4) 0 1 _
      (by rw [hsr]; exact fun hc => hni _ hc.symm)
      (by
        rw [hsr]
        unfold cppIntCast
        rw [if_pos (by norm_num)]
        norm_num)]
  · rw [vibratoOutAt, vibratoRun_char (1 / 2) 0 0 2 1 (by norm_num) 1]
    rw [if_neg (by omega), if_pos (le_refl 1)]
    rw [vibrato_out_lfo (1 / 2) 0 0 _
      (by show (1 / 2 : ℚ) * 2 = (((1 : ℕ) : ℤ) : ℚ); norm_num)
      (by show ((1 : ℕ) : ℤ) ≤ ((1 : ℕ) : ℤ); exact le_refl _)]
    norm_num

/-- C7 amended: with fixed controls, when sustainTime * sampleRate is
exactly an integer m, process() returns exactly 0 on each of the first m
calls and on every call strictly after returns the LFO output scaled by the
amount (vibAmount / 20000), a value that is not necessarily nonzero; and
when sustainTime * sampleRate is a non-integer ≥ 1, the parameter check
resets the sustain counter on every call and process() returns 0 forever. -/
theorem vibrato_sustain_gate :
    (∀ (T sp a sr : ℚ) (m : ℕ), T * sr = (m : ℚ) → ∀ k : ℕ,
        vibratoOutAt T sp a sr k =
          if k < m then 0
          else SinOsc.output (lfoPhaseIter ((sp * 5 + 3) / sr) (k - m + 1)) *
            ((a / 20000 : ℚ) : ℝ)) ∧
      (∀ T sp a sr : ℚ, 1 ≤ T * sr → (∀ z : ℤ, (z : ℚ) ≠ T * sr) → ∀ k : ℕ,
        vibratoOutAt T sp a sr k = 0) := by
  constructor
  · intro T sp a sr m hTm k
    rw [vibratoOutAt, vibratoRun_char T sp a sr m hTm k]
    by_cases hk0 : k = 0
    · subst hk0
      rw [if_pos rfl]
      by_cases hm0 : m = 0
      · subst hm0
        rw [vibrato_out_lfo T sp a _
          (by show T * sr = ((0 : ℤ) : ℚ); rw [hTm]; norm_num)
          (by show (0 : ℤ) ≤ (0 : ℤ); exact le_refl _)]
        rw [if_neg (by omega)]
        simp [Phasor.setFrequency, Phasor.updatePhase, lfoPhaseIter]
      · have hcond : T * sr ≠ ((0 : ℤ) : ℚ) := by rw [hTm]; simpa using hm0
        have hpos : 0 < cppIntCast (T * sr) := by
          rw [hTm, cppIntCast_natCast]
          exact_mod_cast Nat.pos_of_ne_zero hm0
        rw [vibrato_out_reset_gated T sp a _ (by dsimp only; exact hcond)
          (by dsimp only; exact hpos)]
        rw [if_pos (Nat.pos_of_ne_zero hm0)]
    · rw [if_neg hk0]
      by_cases hkm : k < m
      · rw [if_pos (by omega : k ≤ m)]
        rw [vibrato_out_gated T sp a _
          (by show T * sr = ((m : ℤ) : ℚ); rw [hTm]; norm_num)
          (by show (k : ℤ) < (m : ℤ); omega)]
        rw [if_pos hkm]
      · by_cases hkeq : k = m
        · subst hkeq
          rw [if_pos (le_refl k)]
          rw [vibrato_out_lfo T sp a _
            (by show T * sr = ((k : ℤ) : ℚ); rw [hTm]; norm_num)
            (by show (k : ℤ) ≤ (k : ℤ); exact le_refl _)]
          rw [if_neg (by omega), show k - k + 1 = 1 by omega]
          simp [Phasor.setFrequency, Phasor.updatePhase, lfoPhaseIter]
        · rw [if_neg (by omega : ¬ k ≤ m)]
          rw [vibrato_out_lfo T sp a _
            (by show T * sr = ((m : ℤ) : ℚ); rw [hTm]; norm_num)
            (by show (m : ℤ) ≤ (m : ℤ); exact le_refl _)]
          rw [if_neg (by omega), lfoPhaseIter_succ]
          simp [Phasor.setFrequency, Phasor.updatePhase, lfoPhaseIter]
  · intro T sp a sr h1 hni k
    have hsr := vibratoRun_sampleRate T sp a sr k
    rw [vibratoOutAt]
    rw [vibrato_out_reset_gated T sp a _
      (by rw [hsr]; exact fun hc => hni _ hc.symm)
      (by
        rw [hsr]
        unfold cppIntCast
        rw [if_pos (by linarith)]
        have := Int.le_floor.mpr (by exact_mod_cast h1 : ((1 : ℤ) : ℚ) ≤ T * sr)
        omega)]

/-- Witness for C7 amended: the integer case at sustain window 1 (first
call returns 0), and the non-integer case 3/2 (first call returns 0). -/
theorem vibrato_sustain_gate_witness :
    vibratoOutAt 1 0 1 1 0 = 0 ∧ vibratoOutAt (3 / 2) 0 1 1 0 = 0 := by
  constructor
  · have h := vibrato_sustain_gate.1 1 0 1 1 1 (by norm_num) 0
    simpa using h
  · have hni : ∀ z : ℤ, (z : ℚ) ≠ (3 / 2) * 1 := by
      intro z hz
      have h2 : ((2 * z : ℤ) : ℚ) = 3 := by push_cast; linarith
      have h3 : (2 * z : ℤ) = 3 := by exact_mod_cast h2
      omega
    exact vibrato_sustain_gate.2 (3 / 2) 0 1 1 (by norm_num) hni 0
